import Mathlib

/-!
Verification development for the permutohedral-lattice GPU filter
(simplex-gp). The definitions below are a shallow embedding of the CUDA
sources:

- the replay-based pipeline (HashTableGPU with entry2nid, splat_kernel,
  slice_kernel, PermutohedralLatticeGPU::filter) from the unnamed source
  file, second document;
- the lookup-based variant (permutohedral_cuda_kernel.cu) where it differs
  (its filter returns a ones placeholder).

Machine scalars are modelled by an arbitrary linear ordered field with a
floor (instantiable at ℚ for executable witnesses and at ℝ for the actual
irrational scale factors); size_t arithmetic in the hash is modelled on ℕ/ℤ
with explicit reduction mod 2^64; int16_t lattice coordinates are modelled
on ℤ (the claims under verification concern exact arithmetic).  Device-wide
parallel kernels are modelled by their canonical sequential schedule, except
for the dedicated interleaving model of HashTableGPU::insert used to analyse
the concurrent duplicate-key race.
-/

set_option linter.unusedVariables false
set_option linter.unusedSectionVars false

namespace SimplexGP

variable {α : Type} [LinearOrderedField α] [FloorRing α]

/-- Semantics of the C round function: round half away from zero.
Used for round(elevated[i] / (pd + 1)) in splat_kernel. -/
def c_round (x : α) : ℤ := if 0 ≤ x then ⌊x + 1 / 2⌋ else -⌊-x + 1 / 2⌋

/-- Auxiliary for the elevation recurrence, structurally recursive in the
number of steps j taken downwards from the top axis: elevatedAux j is
elevated[pd - j]. -/
def elevatedAux (pd : ℕ) (pos s : ℕ → α) : ℕ → α
  | 0 => -(pd : α) * pos (pd - 1) * s (pd - 1)
  | j + 1 =>
    if pd - (j + 1) = 0 then elevatedAux pd pos s j + 2 * pos 0 * s 0
    else
      elevatedAux pd pos s j -
        ((pd - (j + 1) : ℕ) : α) * pos (pd - (j + 1) - 1) * s (pd - (j + 1) - 1) +
        (((pd - (j + 1) : ℕ) : α) + 2) * pos (pd - (j + 1)) * s (pd - (j + 1))

/-- Elevation recurrence of splat_kernel:
elevated[pd] = -pd * pos[pd-1] * scaleFactor[pd-1];
elevated[i] = elevated[i+1] - i * pos[i-1] * scaleFactor[i-1] + (i+2) * pos[i] * scaleFactor[i]
for pd-1 >= i > 0; elevated[0] = elevated[1] + 2 * pos[0] * scaleFactor[0].
The loop runs downwards from axis pd, so the embedding recurses on the
number of steps taken from the top; the recurrence equations are recovered
as the lemmas elevated_top, elevated_mid and elevated_zero below.  Indices
above pd are never read by the kernel and receive the top value. -/
def elevated (pd : ℕ) (pos s : ℕ → α) (i : ℕ) : α :=
  if pd ≤ i then elevatedAux pd pos s 0 else elevatedAux pd pos s (pd - i)

/-- Rounded lattice coordinate: y[i] = round(elevated[i] / (pd + 1)) * (pd + 1). -/
def yCoord (pd : ℕ) (pos s : ℕ → α) (i : ℕ) : ℤ :=
  c_round (elevated pd pos s i / ((pd : α) + 1)) * ((pd : ℤ) + 1)

/-- Remainder sum before division: h accumulated over y[0..pd] in splat_kernel. -/
def hSum (pd : ℕ) (pos s : ℕ → α) : ℤ :=
  ∑ i in Finset.range (pd + 1), yCoord pd pos s i

/-- The corrected remainder count: h /= (pd + 1).  Each y[i] is a multiple of
pd + 1, so the sum is exactly divisible and the C truncating division agrees
with ℤ division. -/
def hCoord (pd : ℕ) (pos s : ℕ → α) : ℤ := hSum pd pos s / ((pd : ℤ) + 1)

/-- Fractional part used by the ranking loop: elevated[i] - y[i] (with the
pre-correction y). -/
def dPre (pd : ℕ) (pos s : ℕ → α) (i : ℕ) : α :=
  elevated pd pos s i - (yCoord pd pos s i : α)

/-- The (i, j) iteration space of the pairwise ranking loop:
for i in [0, pd), for j in (i, pd]. -/
def pairList (pd : ℕ) : List (ℕ × ℕ) :=
  (List.range (pd + 1)).flatMap fun i =>
    ((List.range (pd + 1)).filter fun j => decide (i < j)).map fun j => (i, j)

/-- One step of the ranking loop: if elevated[i] - y[i] < elevated[j] - y[j]
then rank[i]++ else rank[j]++. -/
def rankStepFn (d : ℕ → α) (rk : ℕ → ℤ) (ij : ℕ × ℕ) : ℕ → ℤ :=
  if d ij.1 < d ij.2 then Function.update rk ij.1 (rk ij.1 + 1)
  else Function.update rk ij.2 (rk ij.2 + 1)

/-- Rank array after the pairwise comparison loop (before the h correction). -/
def rankPre (pd : ℕ) (pos s : ℕ → α) : ℕ → ℤ :=
  (pairList pd).foldl (rankStepFn (dPre pd pos s)) fun _ => 0

/-- The strict comparison order realised by the ranking loop: axis a is
ranked above axis b (contributing one increment to rank[a]) exactly when
a loses the pairwise comparison against b, i.e. when the fractional part of
a is smaller, with ties broken towards the smaller index. -/
def rankLT (d : ℕ → α) (a b : ℕ) : Prop :=
  (a < b ∧ d a < d b) ∨ (b < a ∧ d a ≤ d b)

instance rankLT_dec (d : ℕ → α) (a b : ℕ) : Decidable (rankLT d a b) :=
  inferInstanceAs (Decidable ((a < b ∧ d a < d b) ∨ (b < a ∧ d a ≤ d b)))

/-- Rank after the greedy simplex correction driven by h:
if h > 0 and rank[i] >= pd + 1 - h then rank[i] += h - (pd + 1) else rank[i] += h;
if h < 0 and rank[i] < -h then rank[i] += h + (pd + 1) else rank[i] += h;
unchanged when h = 0. -/
def rankCor (pd : ℕ) (pos s : ℕ → α) (i : ℕ) : ℤ :=
  let h := hCoord pd pos s
  let r := rankPre pd pos s i
  if 0 < h then (if (pd : ℤ) + 1 - h ≤ r then r + h - ((pd : ℤ) + 1) else r + h)
  else if h < 0 then (if r < -h then r + h + ((pd : ℤ) + 1) else r + h)
  else r

/-- Rounded coordinate after the same correction: y[i] -= pd + 1 on the
first branch for h > 0, y[i] += pd + 1 on the first branch for h < 0. -/
def yCor (pd : ℕ) (pos s : ℕ → α) (i : ℕ) : ℤ :=
  let h := hCoord pd pos s
  let r := rankPre pd pos s i
  if 0 < h then (if (pd : ℤ) + 1 - h ≤ r then yCoord pd pos s i - ((pd : ℤ) + 1) else yCoord pd pos s i)
  else if h < 0 then (if r < -h then yCoord pd pos s i + ((pd : ℤ) + 1) else yCoord pd pos s i)
  else yCoord pd pos s i

/-- Barycentric accumulation step for axis i:
delta = (elevated[i] - y[i]) / (pd + 1) with the corrected y and rank;
bary[pd - rank[i]] += delta; bary[pd + 1 - rank[i]] -= delta. -/
def baryStep (pd : ℕ) (pos s : ℕ → α) (b : ℤ → α) (i : ℕ) : ℤ → α :=
  let delta := (elevated pd pos s i - (yCor pd pos s i : α)) / ((pd : α) + 1)
  let b1 := Function.update b ((pd : ℤ) - rankCor pd pos s i)
    (b ((pd : ℤ) - rankCor pd pos s i) + delta)
  Function.update b1 ((pd : ℤ) + 1 - rankCor pd pos s i)
    (b1 ((pd : ℤ) + 1 - rankCor pd pos s i) - delta)

/-- Barycentric array bary[0 .. pd+1] after the accumulation loop, starting
from the zero initialisation done in splat_kernel. -/
def baryAcc (pd : ℕ) (pos s : ℕ → α) : ℤ → α :=
  (List.range (pd + 1)).foldl (baryStep pd pos s) fun _ => 0

/-- Final barycentric weights: bary[0] += 1.0 + bary[pd + 1]. -/
def bary (pd : ℕ) (pos s : ℕ → α) : ℤ → α :=
  Function.update (baryAcc pd pos s) 0
    (baryAcc pd pos s 0 + (1 + baryAcc pd pos s ((pd : ℤ) + 1)))

/-- Canonical offset table of the lattice constructor:
canonical[i * (pd+1) + j] = i for j in [0, pd - i], and i - (pd + 1) for
j in [pd - i + 1, pd].  Presented as a two-argument function of row i and
column j of the flat (pd+1) x (pd+1) array. -/
def canonical (pd : ℕ) (i j : ℕ) : ℤ :=
  if j ≤ pd - i then (i : ℤ) else (i : ℤ) - ((pd : ℤ) + 1)

/-- Lattice key of simplex corner r: key[i] = y[i] + canonical[r * (pd+1) + rank[i]]
(with corrected y and rank), for coordinates i in [0, pd). -/
def keyOfCorner (pd : ℕ) (pos s : ℕ → α) (r : ℕ) : ℕ → ℤ :=
  fun i => yCor pd pos s i + canonical pd r (rankCor pd pos s i).toNat

/-- HashTableGPU::hash: k += static_cast of key[i] to size_t; k *= 2531011;
all on size_t, i.e. mod 2^64.  The int16 to size_t cast of a key coordinate
is its representative mod 2^64. -/
def hashKey (pd : ℕ) (key : ℕ → ℤ) : ℕ :=
  (List.range pd).foldl (fun k i => (k + ((key i) % (2 ^ 64 : ℤ)).toNat) * 2531011 % 2 ^ 64) 0

/-- Shared state of HashTableGPU: the flat key array (keys[slot * pd + i]),
the flat accumulator array (values[slot * vd + channel]) and the bucket
array entry2nid (-1 empty, -2 transiently claimed, otherwise the owning
slot index).  The constructor zero-fills values and sets every bucket
to -1. -/
structure HashTableGPU (α : Type) where
  keys : ℕ → ℤ
  values : ℕ → α
  entry2nid : ℕ → ℤ

/-- Freshly constructed table: values all 0, entry2nid all -1 (the keys
array is raw device memory; it is modelled as 0 and never read before
being written). -/
def initTable : HashTableGPU α := ⟨fun _ => 0, fun _ => 0, fun _ => -1⟩

/-- The key-write loop of the lock-acquired branch of insert:
keys[nid * pd + i] = key[i] for i in [0, pd). -/
def writeKeys (pd : ℕ) (ks : ℕ → ℤ) (nid : ℕ) (key : ℕ → ℤ) : ℕ → ℤ :=
  fun idx => if nid * pd ≤ idx ∧ idx < nid * pd + pd then key (idx - nid * pd) else ks idx

/-- HashTableGPU::insert under the sequential (single-thread-at-a-time)
schedule, with an explicit probe budget standing for loop iterations of the
while(true): at bucket h, atomicCAS(&entry2nid[h], -1, -2);
on -1 (lock acquired) write the key into the caller's reserved slot nid and
publish nid into the bucket, returning h; on a published slot compare the
stored key and return h on a match; otherwise advance h = (h+1) % capacity. -/
def insert (pd capacity : ℕ) (st : HashTableGPU α) (key : ℕ → ℤ) (nid : ℕ) :
    ℕ → ℕ → Option (HashTableGPU α × ℕ)
  | 0, _ => none
  | fuel + 1, h =>
    if st.entry2nid h = -1 then
      some ({ st with
          keys := writeKeys pd st.keys nid key,
          entry2nid := Function.update st.entry2nid h (nid : ℤ) }, h)
    else if st.entry2nid h = -2 then insert pd capacity st key nid fuel ((h + 1) % capacity)
    else if ∀ i < pd, st.keys ((st.entry2nid h).toNat * pd + i) = key i then some (st, h)
    else insert pd capacity st key nid fuel ((h + 1) % capacity)

/-- Probing at bucket b stops (insert returns in this iteration) when b is
empty (the CAS from -1 succeeds) or holds a published slot whose stored key
equals the probing key. -/
def stopsAt (pd : ℕ) (st : HashTableGPU α) (key : ℕ → ℤ) (b : ℕ) : Prop :=
  st.entry2nid b = -1 ∨
    (st.entry2nid b ≠ -1 ∧ st.entry2nid b ≠ -2 ∧
      ∀ i < pd, st.keys ((st.entry2nid b).toNat * pd + i) = key i)

/-- The value-accumulation loop of splat_kernel:
scalar_t val = table.lookupValue(h); for i < vd: gpuAtomicAdd(&val[i], w * value[i]);
with val = &values[entry2nid[h] * vd], i.e. base = entry2nid[h] * vd. -/
def atomicAddVec (vd : ℕ) (vs : ℕ → α) (base : ℕ) (w : α) (value : ℕ → α) : ℕ → α :=
  fun idx => if base ≤ idx ∧ idx < base + vd then vs idx + w * value (idx - base) else vs idx

/-- BLOCK_SIZE of the replay-based file. -/
def blockSize : ℕ := 1024

/-- Number of device threads launched for N work items:
blocks = (N + BLOCK_SIZE - 1) / BLOCK_SIZE, each of BLOCK_SIZE threads. -/
def threadCount (n : ℕ) : ℕ := ((n + blockSize - 1) / blockSize) * blockSize

/-- Corner iteration r of splat_kernel for point n, on the sequential
schedule: nid = n * (pd + 1) + r; build the corner key; insert(key, nid);
record the replay entry (bucket handle, barycentric weight); atomically add
bary[r] * value into the slot the bucket maps to. -/
def splatCorner (pd vd capacity : ℕ) (src ref : ℕ → ℕ → α) (s : ℕ → α)
    (acc : HashTableGPU α × (ℕ → ℕ × α)) (n r : ℕ) :
    Option (HashTableGPU α × (ℕ → ℕ × α)) :=
  let pos := fun i => ref n i
  let key := keyOfCorner pd pos s r
  let nid := n * (pd + 1) + r
  match insert pd capacity acc.1 key nid capacity (hashKey pd key % capacity) with
  | none => none
  | some (st, h) =>
    let w := bary pd pos s (r : ℤ)
    some ({ st with
        values := atomicAddVec vd st.values ((st.entry2nid h).toNat * vd) w fun i => src n i },
      Function.update acc.2 nid (h, w))

/-- The whole splat pass on the sequential schedule: threadCount srcRows
threads are launched (N = src.size(0)); a thread returns early unless
n < ref.size(0); each surviving thread runs the pd + 1 corner iterations.
The replay buffer is raw device memory, modelled as (0, 0) before being
written. -/
def splat (pd vd srcRows refRows : ℕ) (src ref : ℕ → ℕ → α) (s : ℕ → α) :
    Option (HashTableGPU α × (ℕ → ℕ × α)) :=
  let capacity := srcRows * (pd + 1)
  (List.range (min (threadCount srcRows) refRows)).foldl
    (fun acc n =>
      (List.range (pd + 1)).foldl
        (fun acc2 r => acc2.bind fun stp => splatCorner pd vd capacity src ref s stp n r)
        acc)
    (some (initTable, fun _ => (0, 0)))

/-- Slice normalisation constant 1 + powf(2, -pd) = 1 + 2 to the power -pd. -/
def normConst (pd : ℕ) : α := 1 + ((2 : α)⁻¹) ^ pd

/-- Inner loop of slice_kernel for output point n, channel j:
out[j] += replay[nid].weight * val[j] / (1 + powf(2, -pd)) over the corners
r in [0, pd], where nid = n * (pd + 1) + r and
val = table.lookupValue(replay[nid].entry) = &values[entry2nid[entry] * vd].
The output buffer is zero-initialised (torch::zeros_like). -/
def sliceLoop (pd vd : ℕ) (st : HashTableGPU α) (replay : ℕ → ℕ × α) (n j : ℕ) : α :=
  (List.range (pd + 1)).foldl
    (fun acc r =>
      acc + (replay (n * (pd + 1) + r)).2 *
        st.values ((st.entry2nid ((replay (n * (pd + 1) + r)).1)).toNat * vd + j) /
        normConst pd)
    0

/-- The slice pass: result = torch::zeros_like(src); threads are launched
for N = lattice N = src.size(0) points and a thread returns early unless
n < table.N (= srcRows), so rows outside the processed range stay zero. -/
def sliceResult (pd vd srcRows : ℕ) (st : HashTableGPU α) (replay : ℕ → ℕ × α) :
    ℕ → ℕ → α :=
  fun n j => if n < min (threadCount srcRows) srcRows then sliceLoop pd vd st replay n j else 0

/-- PermutohedralLatticeGPU::filter of the replay-based file:
splat, full device synchronisation, slice (the blur stage between them is a
TODO in the source and performs nothing), full synchronisation, return the
slice result. -/
def filter (pd vd srcRows refRows : ℕ) (src ref : ℕ → ℕ → α) (s : ℕ → α) :
    Option (ℕ → ℕ → α) :=
  (splat pd vd srcRows refRows src ref s).map fun stp =>
    sliceResult pd vd srcRows stp.1 stp.2

/-- PermutohedralLatticeGPU::filter of permutohedral_cuda_kernel.cu: after
running its splat it returns at::ones_like(src) (its own comment: TODO fixme
once computations completed), i.e. every entry of the returned buffer is 1
regardless of the accumulated lattice contents. -/
def filterCu (srcRows vd : ℕ) : ℕ → ℕ → α := fun _ _ => 1

/-- Instrumented run of the boundary entry point permutohedral_cuda_filter:
the source performs no precondition checks of any kind; it reads
pd = ref.size(-1), vd = src.size(-1), N = src.size(0), constructs the
lattice and unconditionally dispatches the splat kernel and (in the
replay-based file) the slice kernel.  The two booleans record those two
kernel dispatches. -/
structure FilterRun (α : Type) where
  dispatchedSplat : Bool
  dispatchedSlice : Bool
  result : Option (ℕ → ℕ → α)

/-- permutohedral_cuda_filter(src, ref) on the sequential schedule.  There
is no conditional between entry and the kernel launches, so both dispatch
flags are unconditionally true. -/
def permutohedral_cuda_filter (pd vd srcRows refRows : ℕ)
    (src ref : ℕ → ℕ → α) (s : ℕ → α) : FilterRun α :=
  { dispatchedSplat := true
    dispatchedSlice := true
    result := filter pd vd srcRows refRows src ref s }

/-! Interleaving model of HashTableGPU::insert for the concurrent
duplicate-key analysis.  A thread is a program counter over the body of
insert: probing at bucket h (about to atomicCAS), holding the transient -2
claim at bucket h (about to write its key and publish its slot), or done
with returned handle h.  Each step is one atomic access to the shared
bucket array, matching the granularity of atomicCAS / atomicExch in the
source; the key write and the publishing atomicExch of the lock-acquired
branch form the second step. -/

/-- Thread phase inside HashTableGPU::insert. -/
inductive InsertPhase
  | probing (h : ℕ)
  | claiming (h : ℕ)
  | finished (h : ℕ)
deriving DecidableEq, Repr

/-- A thread running insert(key, nid). -/
structure InsertThread where
  key : ℕ → ℤ
  nid : ℕ
  phase : InsertPhase

/-- Shared memory touched by insert: the bucket array and the key slots. -/
structure InsertShared where
  keys : ℕ → ℤ
  entry2nid : ℕ → ℤ

/-- One atomic step of a thread inside insert.  In phase probing h the
thread performs atomicCAS(&entry2nid[h], -1, -2) and branches exactly as
the source does; in phase claiming h it writes its key into its reserved
slot and publishes the slot with atomicExch(&entry2nid[h], nid). -/
def insertStep (pd capacity : ℕ) (sh : InsertShared) (t : InsertThread) :
    InsertShared × InsertThread :=
  match t.phase with
  | .probing h =>
    let e := sh.entry2nid h
    if e = -1 then
      ({ sh with entry2nid := Function.update sh.entry2nid h (-2) },
        { t with phase := .claiming h })
    else if e = -2 then (sh, { t with phase := .probing ((h + 1) % capacity) })
    else if ∀ i < pd, sh.keys (e.toNat * pd + i) = t.key i then
      (sh, { t with phase := .finished h })
    else (sh, { t with phase := .probing ((h + 1) % capacity) })
  | .claiming h =>
    ({ keys := writeKeys pd sh.keys t.nid t.key,
       entry2nid := Function.update sh.entry2nid h (t.nid : ℤ) },
      { t with phase := .finished h })
  | .finished _ => (sh, t)

/-- Run two concurrent insert calls under an explicit schedule: true steps
thread a, false steps thread b. -/
def runSched (pd capacity : ℕ) :
    InsertShared → InsertThread → InsertThread → List Bool →
    InsertShared × InsertThread × InsertThread
  | sh, a, b, [] => (sh, a, b)
  | sh, a, b, true :: rest =>
    let sa := insertStep pd capacity sh a
    runSched pd capacity sa.1 sa.2 b rest
  | sh, a, b, false :: rest =>
    let sb := insertStep pd capacity sh b
    runSched pd capacity sb.1 a sb.2 rest

/-- A concrete two-thread execution of HashTableGPU::insert with pd = 1 and
capacity = 4 (two points, so N * (pd + 1) = 4): both threads insert the
bit-identical key (0), thread a with reserved slot 0 and thread b with
reserved slot 2, both starting at the key's home bucket hash(key) mod 4 = 0.
The schedule interleaves them as: a wins the CAS at bucket 0; b reads the
transient -2 and probes past it; b wins the CAS at bucket 1 and publishes
slot 2; a publishes slot 0 at bucket 0. -/
def raceDemo : InsertShared × InsertThread × InsertThread :=
  runSched 1 4 ⟨fun _ => 0, fun _ => -1⟩
    ⟨fun _ => 0, 0, InsertPhase.probing (hashKey 1 (fun _ => 0) % 4)⟩
    ⟨fun _ => 0, 2, InsertPhase.probing (hashKey 1 (fun _ => 0) % 4)⟩
    [true, false, false, false, true]

/-- Concrete table used to exercise the match path of insert: buckets 0 and
3 are owned by slots 0 and 1 (the two corners of point 0 at position 0 with
pd = 1: keys (0) and (1), whose home buckets mod 4 are 0 and 3), all other
buckets empty, accumulators zero. -/
def c4DemoTable : HashTableGPU ℚ :=
  ⟨fun idx => if idx = 1 then 1 else 0,
   fun _ => 0,
   fun b => if b = 0 then 0 else if b = 3 then 1 else -1⟩

/-! Theorems. -/

/-- One downward step of the elevation recursion. -/
theorem elevatedAux_succ (pd : ℕ) (pos s : ℕ → α) (j : ℕ) :
    elevatedAux pd pos s (j + 1) =
      if pd - (j + 1) = 0 then elevatedAux pd pos s j + 2 * pos 0 * s 0
      else
        elevatedAux pd pos s j -
          ((pd - (j + 1) : ℕ) : α) * pos (pd - (j + 1) - 1) * s (pd - (j + 1) - 1) +
          (((pd - (j + 1) : ℕ) : α) + 2) * pos (pd - (j + 1)) * s (pd - (j + 1)) := rfl

/-- The elevation at the top axis: elevated[i] for pd at most i is the
assignment elevated[pd] = -pd * pos[pd-1] * scaleFactor[pd-1]. -/
theorem elevated_top (pd : ℕ) (pos s : ℕ → α) (i : ℕ) (h : pd ≤ i) :
    elevated pd pos s i = -(pd : α) * pos (pd - 1) * s (pd - 1) := by
  unfold elevated
  rw [if_pos h]
  rfl

/-- The elevation loop body for 0 < i < pd. -/
theorem elevated_mid (pd : ℕ) (pos s : ℕ → α) (i : ℕ) (h1 : 0 < i) (h2 : i < pd) :
    elevated pd pos s i =
      elevated pd pos s (i + 1) - (i : α) * pos (i - 1) * s (i - 1) +
        ((i : α) + 2) * pos i * s i := by
  unfold elevated
  rw [if_neg (show ¬ pd ≤ i by omega)]
  rw [show pd - i = (pd - (i + 1)) + 1 by omega]
  rw [elevatedAux_succ]
  rw [show pd - ((pd - (i + 1)) + 1) = i by omega]
  rw [if_neg (show ¬ i = 0 by omega)]
  by_cases hip : pd ≤ i + 1
  · rw [if_pos hip, show pd - (i + 1) = 0 by omega]
  · rw [if_neg hip]

/-- The final elevation assignment elevated[0] = elevated[1] + 2 * pos[0] * scaleFactor[0]. -/
theorem elevated_zero (pd : ℕ) (pos s : ℕ → α) (h : 0 < pd) :
    elevated pd pos s 0 = elevated pd pos s 1 + 2 * pos 0 * s 0 := by
  unfold elevated
  rw [if_neg (by omega)]
  rw [show pd - 0 = (pd - 1) + 1 by omega]
  rw [elevatedAux_succ]
  rw [show pd - ((pd - 1) + 1) = 0 by omega]
  rw [if_pos rfl]
  by_cases hip : pd ≤ 1
  · rw [if_pos hip, show pd - 1 = 0 by omega]
  · rw [if_neg hip]

/-- Auxiliary: folding an accumulate-into loop over the index list
[0, n) equals the initial value plus the finite sum, as in the slice
kernel's zero-initialised accumulation. -/
theorem foldl_add_eq_sum (f : ℕ → α) :
    ∀ (n : ℕ) (a : α),
      (List.range n).foldl (fun acc r => acc + f r) a = a + ∑ r in Finset.range n, f r := by
  intro n
  induction n with
  | zero => intro a; simp
  | succ m ih =>
    intro a
    rw [List.range_succ, List.foldl_append, ih, Finset.sum_range_succ]
    simp [add_assoc]

/-- Reduction of insert when the probed bucket is empty: the CAS succeeds,
the key is written into the reserved slot and the slot is published. -/
theorem insert_eq_claim (pd capacity : ℕ) (st : HashTableGPU α) (key : ℕ → ℤ)
    (nid fuel h : ℕ) (he : st.entry2nid h = -1) :
    insert pd capacity st key nid (fuel + 1) h =
      some ({ st with keys := writeKeys pd st.keys nid key,
                      entry2nid := Function.update st.entry2nid h (nid : ℤ) }, h) := by
  rw [insert, if_pos he]

/-- Reduction of insert when the probed bucket holds a published slot whose
key matches: the existing bucket is returned and the table is unchanged. -/
theorem insert_eq_match (pd capacity : ℕ) (st : HashTableGPU α) (key : ℕ → ℤ)
    (nid fuel h : ℕ) (he1 : st.entry2nid h ≠ -1) (he2 : st.entry2nid h ≠ -2)
    (hm : ∀ i < pd, st.keys ((st.entry2nid h).toNat * pd + i) = key i) :
    insert pd capacity st key nid (fuel + 1) h = some (st, h) := by
  rw [insert, if_neg he1, if_neg he2, if_pos hm]

/-- Reduction of insert when probing does not stop at h: linear probing
advances to (h + 1) mod capacity with the table unchanged. -/
theorem insert_eq_probe (pd capacity : ℕ) (st : HashTableGPU α) (key : ℕ → ℤ)
    (nid fuel h : ℕ) (hns : ¬ stopsAt pd st key h) :
    insert pd capacity st key nid (fuel + 1) h =
      insert pd capacity st key nid fuel ((h + 1) % capacity) := by
  rcases not_or.mp hns with ⟨he1, hrest⟩
  rw [insert, if_neg he1]
  by_cases he2 : st.entry2nid h = -2
  · rw [if_pos he2]
  · rw [if_neg he2, if_neg fun hm => hrest ⟨he1, he2, hm⟩]

/-- Auxiliary: insert returns within fuel probes whenever some probe
position among the next fuel ones stops. -/
theorem insert_stops (pd capacity : ℕ) (st : HashTableGPU α) (key : ℕ → ℤ) (nid : ℕ) :
    ∀ (fuel h : ℕ), h < capacity →
      (∃ k < fuel, stopsAt pd st key ((h + k) % capacity)) →
      (insert pd capacity st key nid fuel h).isSome := by
  intro fuel
  induction fuel with
  | zero =>
    intro h _ hex
    obtain ⟨k, hk, _⟩ := hex
    omega
  | succ m ih =>
    intro h hh hex
    obtain ⟨k, hk, hstop⟩ := hex
    by_cases hs : stopsAt pd st key h
    · rcases hs with he | ⟨he1, he2, hm⟩
      · rw [insert_eq_claim pd capacity st key nid m h he]; rfl
      · rw [insert_eq_match pd capacity st key nid m h he1 he2 hm]; rfl
    · rw [insert_eq_probe pd capacity st key nid m h hs]
      apply ih
      · exact Nat.mod_lt _ (by omega)
      · have hk0 : k ≠ 0 := by
          rintro rfl
          rw [Nat.add_zero, Nat.mod_eq_of_lt hh] at hstop
          exact hs hstop
        refine ⟨k - 1, by omega, ?_⟩
        have harith : ((h + 1) % capacity + (k - 1)) % capacity = (h + k) % capacity := by
          rw [Nat.mod_add_mod]
          congr 1
          omega
        rw [harith]
        exact hstop

/-- C1: the key identity property fails under concurrent interleaving.  In
the concrete execution raceDemo, both threads run HashTableGPU::insert with
the bit-identical key (fun i => 0) yet finish with distinct bucket handles
(0 and 1): bucket 0 owns slot 0 and bucket 1 owns slot 2, so the two
threads' weighted feature contributions are atomically added at the
distinct accumulator bases entry2nid[0] * vd and entry2nid[1] * vd
(vd = 1 here) instead of one shared slot.  This realises the duplicate-key
race the source itself flags (the FIXME above the replay bookkeeping in
splat_kernel). -/
theorem c1_concurrent_key_identity_violated :
    raceDemo.2.1.key = raceDemo.2.2.key ∧
    raceDemo.2.1.phase = InsertPhase.finished 0 ∧
    raceDemo.2.2.phase = InsertPhase.finished 1 ∧
    raceDemo.1.entry2nid 0 = 0 ∧
    raceDemo.1.entry2nid 1 = 2 ∧
    (raceDemo.1.entry2nid 0).toNat * 1 ≠ (raceDemo.1.entry2nid 1).toNat * 1 := by
  refine ⟨rfl, ?_, ?_, ?_, ?_, ?_⟩ <;> decide

/-- C9: row r of the canonical offset table holds the value r on the first
pd + 1 - r columns (j at most pd - r) and r - (pd + 1) on the last r
columns, hence sums to zero; consequently adding a canonical row, permuted
by any rank permutation of the columns, to rounded coordinates of zero
total keeps the lattice key's coordinate total at zero. -/
theorem c9_canonical_zero_sum (pd r : ℕ) (hr : r ≤ pd) :
    (∀ j ≤ pd - r, canonical pd r j = (r : ℤ)) ∧
    (∀ j, pd - r < j → j ≤ pd → canonical pd r j = (r : ℤ) - ((pd : ℤ) + 1)) ∧
    ∑ j in Finset.range (pd + 1), canonical pd r j = 0 ∧
    ∀ (yv : ℕ → ℤ) (rk : ℕ → ℕ),
      Finset.image rk (Finset.range (pd + 1)) = Finset.range (pd + 1) →
      ∑ i in Finset.range (pd + 1), yv i = 0 →
      ∑ i in Finset.range (pd + 1), (yv i + canonical pd r (rk i)) = 0 := by
  have h1 : ∀ j ≤ pd - r, canonical pd r j = (r : ℤ) := fun j hj => if_pos hj
  have h2 : ∀ j, pd - r < j → j ≤ pd → canonical pd r j = (r : ℤ) - ((pd : ℤ) + 1) :=
    fun j hj _ => if_neg (not_le.mpr hj)
  have hfilter : (Finset.range (pd + 1)).filter (fun j => j ≤ pd - r) =
      Finset.range (pd - r + 1) := by
    ext x
    simp only [Finset.mem_filter, Finset.mem_range]
    omega
  have hcardpos : ((Finset.range (pd + 1)).filter (fun j => j ≤ pd - r)).card = pd - r + 1 := by
    rw [hfilter, Finset.card_range]
  have hcardneg : ((Finset.range (pd + 1)).filter (fun j => ¬ j ≤ pd - r)).card = r := by
    have := Finset.filter_card_add_filter_neg_card_eq_card
      (s := Finset.range (pd + 1)) (p := fun j => j ≤ pd - r)
    rw [Finset.card_range, hcardpos] at this
    omega
  have hsum : ∑ j in Finset.range (pd + 1), canonical pd r j = 0 := by
    unfold canonical
    rw [Finset.sum_ite, Finset.sum_const, Finset.sum_const, hcardpos, hcardneg]
    have hc : ((pd - r + 1 : ℕ) : ℤ) = (pd : ℤ) - (r : ℤ) + 1 := by
      push_cast [Nat.cast_sub hr]
      ring
    rw [nsmul_eq_mul, nsmul_eq_mul, hc]
    ring
  refine ⟨h1, h2, hsum, ?_⟩
  intro yv rk himg hzero
  have hinj : Set.InjOn rk (Finset.range (pd + 1)) := by
    apply Finset.injOn_of_card_image_eq
    rw [himg]
  rw [Finset.sum_add_distrib, hzero, zero_add]
  have himage : ∑ j in Finset.image rk (Finset.range (pd + 1)), canonical pd r j =
      ∑ i in Finset.range (pd + 1), canonical pd r (rk i) :=
    Finset.sum_image fun x hx y hy hxy => hinj hx hy hxy
  rw [← himage, himg, hsum]

/-- Witness for C9 at pd = 1, r = 1: the hypothesis r at most pd holds and
the canonical row is (1, -1) with zero sum. -/
theorem c9_canonical_zero_sum_witness :
    (1 ≤ 1) ∧ canonical 1 1 0 = 1 ∧ canonical 1 1 1 = -1 ∧
      ∑ j in Finset.range 2, canonical 1 1 j = 0 := by
  obtain ⟨h1, h2, h3, _⟩ := c9_canonical_zero_sum 1 1 (by decide)
  exact ⟨by decide, h1 0 (by decide), h2 1 (by decide) (by decide), h3⟩

/-- C7: for a processed output point n, the slice stage starts from the
zero-initialised output row and accumulates, over the pd + 1 corners r,
replay[n * (pd+1) + r].weight times the accumulator slot addressed by
replay[n * (pd+1) + r].entry (through the bucket indirection entry2nid),
divided by the fixed normalisation constant 1 + 2 to the power -pd, on
every channel j. -/
theorem c7_slice_recombination (pd vd srcRows : ℕ) (st : HashTableGPU α)
    (replay : ℕ → ℕ × α) (n j : ℕ) (hn : n < min (threadCount srcRows) srcRows) :
    sliceResult pd vd srcRows st replay n j =
      ∑ r in Finset.range (pd + 1),
        (replay (n * (pd + 1) + r)).2 *
          st.values ((st.entry2nid ((replay (n * (pd + 1) + r)).1)).toNat * vd + j) /
          (1 + ((2 : α)⁻¹) ^ pd) := by
  unfold sliceResult
  rw [if_pos hn]
  unfold sliceLoop
  rw [foldl_add_eq_sum
    (fun r => (replay (n * (pd + 1) + r)).2 *
      st.values ((st.entry2nid ((replay (n * (pd + 1) + r)).1)).toNat * vd + j) /
      normConst pd) (pd + 1) 0, zero_add]
  unfold normConst
  rfl

/-- Witness for C7 at pd = 1, vd = 1, srcRows = 1, n = 0, j = 0 on the
freshly constructed table and raw replay buffer. -/
theorem c7_slice_recombination_witness :
    0 < min (threadCount 1) 1 ∧
    sliceResult 1 1 1 (initTable : HashTableGPU ℚ) (fun _ => (0, 0)) 0 0 =
      ∑ r in Finset.range 2,
        ((fun (_ : ℕ) => ((0 : ℕ), (0 : ℚ))) (0 * 2 + r)).2 *
          (initTable : HashTableGPU ℚ).values
            (((initTable : HashTableGPU ℚ).entry2nid
              (((fun (_ : ℕ) => ((0 : ℕ), (0 : ℚ))) (0 * 2 + r)).1)).toNat * 1 + 0) /
          (1 + ((2 : ℚ)⁻¹) ^ 1) :=
  ⟨by decide, c7_slice_recombination 1 1 1 initTable (fun _ => (0, 0)) 0 0 (by decide)⟩

/-- C5: on the sequential schedule, insert terminates within capacity
probes with capacity = N * (pd + 1): whenever some bucket is still empty
(which the capacity invariant guarantees under correct usage, since at
most one bucket is claimed per prior insert), running insert with a probe
budget of capacity reaches a stopping bucket, because capacity consecutive
probe positions starting at the key's home bucket cover every bucket. -/
theorem c5_insert_terminates (pd N : ℕ) (st : HashTableGPU α) (key : ℕ → ℤ) (nid : ℕ)
    (hcap : 0 < N * (pd + 1))
    (hempty : ∃ b < N * (pd + 1), st.entry2nid b = -1) :
    (insert pd (N * (pd + 1)) st key nid (N * (pd + 1))
      (hashKey pd key % (N * (pd + 1)))).isSome := by
  obtain ⟨b, hb, he⟩ := hempty
  have hh0lt : hashKey pd key % (N * (pd + 1)) < N * (pd + 1) := Nat.mod_lt _ hcap
  apply insert_stops pd (N * (pd + 1)) st key nid (N * (pd + 1)) _ hh0lt
  refine ⟨(b + N * (pd + 1) - hashKey pd key % (N * (pd + 1))) % (N * (pd + 1)),
    Nat.mod_lt _ hcap, ?_⟩
  have hmod : (hashKey pd key % (N * (pd + 1)) +
      (b + N * (pd + 1) - hashKey pd key % (N * (pd + 1))) % (N * (pd + 1))) %
        (N * (pd + 1)) = b := by
    rw [Nat.add_mod_mod]
    have hsum : hashKey pd key % (N * (pd + 1)) +
        (b + N * (pd + 1) - hashKey pd key % (N * (pd + 1))) = b + N * (pd + 1) := by
      omega
    rw [hsum, Nat.add_mod_right, Nat.mod_eq_of_lt hb]
  rw [hmod]
  exact Or.inl he

/-- C4: pre-reserved slot discipline on the sequential schedule.  The splat
stage calls insert for (point n, corner r) with the arithmetically derived
slot index n * (pd + 1) + r (see splatCorner; no shared-counter allocation
exists in the replay-based file, unlike next_free_slot of the lookup-based
variant).  Provided every already-owned bucket holds a slot below that
index (the processing invariant: earlier (point, corner) pairs have
strictly smaller reserved indices), a successful insert either claims an
empty bucket, registering exactly the pre-reserved index and writing the
key into the caller's own slot, or finds an existing bucket owning an equal
key: then the table is unchanged, the owning slot is an earlier thread's
pre-reserved index, different from the caller's own, and the splat stage's
atomic accumulation at base entry2nid[h] * vd never touches the caller's
own pre-reserved value range [(n * (pd+1) + r) * vd, ... + vd). -/
theorem c4_reserved_slot_discipline (pd vd capacity n r : ℕ) (st st2 : HashTableGPU α)
    (key : ℕ → ℤ) (hh : ℕ) (fuel h0 : ℕ)
    (hInv : ∀ b < capacity, st.entry2nid b = -1 ∨
      (0 ≤ st.entry2nid b ∧ st.entry2nid b < ((n * (pd + 1) + r : ℕ) : ℤ)))
    (h0lt : h0 < capacity)
    (hrun : insert pd capacity st key (n * (pd + 1) + r) fuel h0 = some (st2, hh)) :
    (st.entry2nid hh = -1 ∧
      st2.entry2nid hh = ((n * (pd + 1) + r : ℕ) : ℤ) ∧
      ∀ i < pd, st2.keys ((n * (pd + 1) + r) * pd + i) = key i) ∨
    (st2 = st ∧ 0 ≤ st.entry2nid hh ∧
      st.entry2nid hh < ((n * (pd + 1) + r : ℕ) : ℤ) ∧
      (∀ i < pd, st.keys ((st.entry2nid hh).toNat * pd + i) = key i) ∧
      (st.entry2nid hh).toNat ≠ n * (pd + 1) + r ∧
      ∀ (w : α) (value : ℕ → α) (idx : ℕ), (n * (pd + 1) + r) * vd ≤ idx →
        atomicAddVec vd st2.values ((st2.entry2nid hh).toNat * vd) w value idx =
          st2.values idx) := by
  set m := n * (pd + 1) + r with hm
  clear_value m
  induction fuel generalizing h0 with
  | zero => simp [insert] at hrun
  | succ fuel ih =>
    rw [insert] at hrun
    by_cases he1 : st.entry2nid h0 = -1
    · rw [if_pos he1] at hrun
      simp only [Option.some.injEq, Prod.mk.injEq] at hrun
      obtain ⟨hst, hhh⟩ := hrun
      subst hhh
      left
      refine ⟨he1, ?_, ?_⟩
      · rw [← hst]
        exact Function.update_same h0 ((m : ℕ) : ℤ) st.entry2nid
      · intro i hi
        rw [← hst]
        show writeKeys pd st.keys m key (m * pd + i) = key i
        unfold writeKeys
        rw [if_pos ⟨Nat.le_add_right _ _, by omega⟩]
        congr 1
        omega
    · rw [if_neg he1] at hrun
      by_cases he2 : st.entry2nid h0 = -2
      · rw [if_pos he2] at hrun
        exact ih ((h0 + 1) % capacity) (Nat.mod_lt _ (by omega)) hrun
      · rw [if_neg he2] at hrun
        by_cases hmatch : ∀ i < pd, st.keys ((st.entry2nid h0).toNat * pd + i) = key i
        · rw [if_pos hmatch] at hrun
          simp only [Option.some.injEq, Prod.mk.injEq] at hrun
          obtain ⟨hst, hhh⟩ := hrun
          subst hhh
          right
          rcases hInv h0 h0lt with hemp | ⟨hnn, hlt⟩
          · exact absurd hemp he1
          · have htn : (st.entry2nid h0).toNat < m := by omega
            refine ⟨hst.symm, hnn, hlt, hmatch, by omega, ?_⟩
            intro w value idx hidx
            rw [← hst]
            unfold atomicAddVec
            rw [if_neg ?_]
            rintro ⟨_, hup⟩
            have hstep : (st.entry2nid h0).toNat * vd + vd = ((st.entry2nid h0).toNat + 1) * vd := by
              rw [Nat.succ_mul]
            have hle : ((st.entry2nid h0).toNat + 1) * vd ≤ m * vd :=
              Nat.mul_le_mul_right vd (by omega)
            rw [hstep] at hup
            exact absurd (lt_of_lt_of_le hup (le_trans hle hidx)) (lt_irrefl idx)
        · rw [if_neg hmatch] at hrun
          exact ih ((h0 + 1) % capacity) (Nat.mod_lt _ (by omega)) hrun

/-- Witness for C4 at pd = 1, vd = 1, capacity = 4, point n = 1, corner
r = 0 (reserved slot 2) on c4DemoTable, whose owned buckets hold the
earlier slots 0 and 1: insert finds the matching bucket 0. -/
theorem c4_reserved_slot_discipline_witness :
    ((∀ b < 4, c4DemoTable.entry2nid b = -1 ∨
        (0 ≤ c4DemoTable.entry2nid b ∧
          c4DemoTable.entry2nid b < ((1 * (1 + 1) + 0 : ℕ) : ℤ))) ∧
      (0 : ℕ) < 4) ∧
    ((c4DemoTable.entry2nid 0 = -1 ∧
        c4DemoTable.entry2nid 0 = ((1 * (1 + 1) + 0 : ℕ) : ℤ) ∧
        ∀ i < 1, c4DemoTable.keys ((1 * (1 + 1) + 0) * 1 + i) = (fun _ => (0 : ℤ)) i) ∨
      (c4DemoTable = c4DemoTable ∧ 0 ≤ c4DemoTable.entry2nid 0 ∧
        c4DemoTable.entry2nid 0 < ((1 * (1 + 1) + 0 : ℕ) : ℤ) ∧
        (∀ i < 1, c4DemoTable.keys ((c4DemoTable.entry2nid 0).toNat * 1 + i) =
          (fun _ => (0 : ℤ)) i) ∧
        (c4DemoTable.entry2nid 0).toNat ≠ 1 * (1 + 1) + 0 ∧
        ∀ (w : ℚ) (value : ℕ → ℚ) (idx : ℕ), (1 * (1 + 1) + 0) * 1 ≤ idx →
          atomicAddVec 1 c4DemoTable.values ((c4DemoTable.entry2nid 0).toNat * 1) w value idx =
            c4DemoTable.values idx)) :=
  ⟨⟨by decide, by decide⟩,
    c4_reserved_slot_discipline 1 1 4 1 0 c4DemoTable c4DemoTable (fun _ => 0) 0 4 0
      (by decide) (by decide) rfl⟩

/-- Witness for C5 at pd = 1, N = 1 (capacity 2) on the freshly
constructed table: the capacity is positive, bucket 0 is empty, and insert
with probe budget 2 returns. -/
theorem c5_insert_terminates_witness :
    (0 < 1 * (1 + 1) ∧ ∃ b < 1 * (1 + 1), (initTable : HashTableGPU ℚ).entry2nid b = -1) ∧
    (insert 1 (1 * (1 + 1)) (initTable : HashTableGPU ℚ) (fun _ => 0) 0 (1 * (1 + 1))
      (hashKey 1 (fun _ => 0) % (1 * (1 + 1)))).isSome :=
  ⟨⟨by decide, 0, by decide, rfl⟩,
    c5_insert_terminates 1 1 initTable (fun _ => 0) 0 (by decide) ⟨0, by decide, rfl⟩⟩

/-! Closed form of the elevation and the zero-sum property of the elevated coordinates. -/
theorem elevated_closed (pd : ℕ) (pos s : ℕ → α) :
    ∀ i ≤ pd, elevated pd pos s i =
      (∑ j in Finset.Ico i pd, pos j * s j) - (i : α) * pos (i - 1) * s (i - 1) := by
  have hmain : ∀ k i, pd - i ≤ k → i ≤ pd → elevated pd pos s i =
      (∑ j in Finset.Ico i pd, pos j * s j) - (i : α) * pos (i - 1) * s (i - 1) := by
    intro k
    induction k with
    | zero =>
      intro i hk hle
      have hip : i = pd := by omega
      rw [hip, elevated_top pd pos s pd le_rfl, Finset.Ico_self, Finset.sum_empty]
      ring
    | succ k ih =>
      intro i hk hle
      by_cases hip : i = pd
      · rw [hip, elevated_top pd pos s pd le_rfl, Finset.Ico_self, Finset.sum_empty]
        ring
      · have hlt : i < pd := by omega
        have hsucc := ih (i + 1) (by omega) (by omega)
        have hsplit : ∑ j in Finset.Ico i pd, pos j * s j =
            pos i * s i + ∑ j in Finset.Ico (i + 1) pd, pos j * s j :=
          Finset.sum_eq_sum_Ico_succ_bot hlt _
        by_cases hi0 : i = 0
        · subst hi0
          rw [elevated_zero pd pos s hlt, hsucc, hsplit]
          push_cast
          ring
        · rw [elevated_mid pd pos s i (by omega) hlt, hsucc, hsplit]
          have hc : ((i + 1 : ℕ) : α) = (i : α) + 1 := by push_cast; ring
          rw [hc]
          have hd : (i + 1 - 1 : ℕ) = i := by omega
          rw [hd]
          ring
  exact fun i => hmain (pd - i) i le_rfl

theorem elevated_sum_zero (pd : ℕ) (pos s : ℕ → α) :
    ∑ i in Finset.range (pd + 1), elevated pd pos s i = 0 := by
  have hcong : ∀ i ∈ Finset.range (pd + 1), elevated pd pos s i =
      (∑ j in Finset.Ico i pd, pos j * s j) - (i : α) * pos (i - 1) * s (i - 1) := by
    intro i hi
    exact elevated_closed pd pos s i (by simpa [Nat.lt_succ_iff] using Finset.mem_range.mp hi)
  rw [Finset.sum_congr rfl hcong, Finset.sum_sub_distrib]
  have hswap : ∑ i in Finset.range (pd + 1), ∑ j in Finset.Ico i pd, pos j * s j =
      ∑ j in Finset.range pd, ∑ i in Finset.range (j + 1), pos j * s j := by
    apply Finset.sum_comm'
    intro i j
    simp only [Finset.mem_range, Finset.mem_Ico]
    omega
  have hsecond : ∑ i in Finset.range (pd + 1), (i : α) * pos (i - 1) * s (i - 1) =
      ∑ j in Finset.range pd, ((j : α) + 1) * pos j * s j := by
    rw [Finset.sum_range_succ']
    simp only [Nat.cast_zero, zero_mul, add_zero]
    apply Finset.sum_congr rfl
    intro j hj
    have h1 : (j + 1 - 1 : ℕ) = j := by omega
    rw [h1]
    push_cast
    ring
  rw [hswap, hsecond]
  rw [← Finset.sum_sub_distrib]
  apply Finset.sum_eq_zero
  intro j hj
  rw [Finset.sum_const, Finset.card_range, nsmul_eq_mul]
  push_cast
  ring

/-! The C round function moves a value by at most one half. -/
theorem floor_half_bound (y : α) : |((⌊y + 1 / 2⌋ : ℤ) : α) - y| ≤ 1 / 2 := by
  rw [abs_le]
  constructor
  · have h := Int.sub_one_lt_floor (y + 1 / 2)
    have : y + 1 / 2 - 1 < ((⌊y + 1 / 2⌋ : ℤ) : α) := h
    linarith
  · have h := Int.floor_le (y + 1 / 2)
    linarith

theorem c_round_bound (x : α) : |((c_round x : ℤ) : α) - x| ≤ 1 / 2 := by
  unfold c_round
  by_cases hx : 0 ≤ x
  · rw [if_pos hx]
    exact floor_half_bound x
  · rw [if_neg hx]
    have h := floor_half_bound (-x)
    push_cast
    rw [show -((⌊-x + 1 / 2⌋ : ℤ) : α) - x = -(((⌊-x + 1 / 2⌋ : ℤ) : α) - -x) by ring, abs_neg]
    exact h

/-! Bound on the remainder count h. -/
theorem hCoord_eq_sum (pd : ℕ) (pos s : ℕ → α) :
    hCoord pd pos s =
      ∑ i in Finset.range (pd + 1), c_round (elevated pd pos s i / ((pd : α) + 1)) := by
  unfold hCoord hSum yCoord
  rw [← Finset.sum_mul]
  exact Int.mul_ediv_cancel _ (by omega)

theorem hCoord_abs_le (pd : ℕ) (pos s : ℕ → α) : |hCoord pd pos s| ≤ (pd : ℤ) + 1 := by
  have hx : ∑ i in Finset.range (pd + 1), elevated pd pos s i / ((pd : α) + 1) = 0 := by
    rw [← Finset.sum_div, elevated_sum_zero, zero_div]
  have hcast : ((|hCoord pd pos s| : ℤ) : α) ≤ (((pd : ℤ) + 1 : ℤ) : α) := by
    push_cast
    rw [← Int.cast_abs]
    have h1 : ((hCoord pd pos s : ℤ) : α) =
        ∑ i in Finset.range (pd + 1),
          (((c_round (elevated pd pos s i / ((pd : α) + 1)) : ℤ) : α) -
            elevated pd pos s i / ((pd : α) + 1)) := by
      rw [Finset.sum_sub_distrib, hx, sub_zero, hCoord_eq_sum]
      push_cast
      rfl
    rw [Int.cast_abs, h1]
    calc |∑ i in Finset.range (pd + 1),
          (((c_round (elevated pd pos s i / ((pd : α) + 1)) : ℤ) : α) -
            elevated pd pos s i / ((pd : α) + 1))| ≤
        ∑ i in Finset.range (pd + 1), (1 / 2 : α) := by
          refine le_trans (Finset.abs_sum_le_sum_abs _ _) ?_
          exact Finset.sum_le_sum fun i _ => c_round_bound _
      _ ≤ (pd : α) + 1 := by
          rw [Finset.sum_const, Finset.card_range, nsmul_eq_mul]
          push_cast
          have hpd : (0 : α) ≤ (pd : α) := Nat.cast_nonneg pd
          linarith
  exact_mod_cast hcast

/-! Characterisation of the pairwise ranking loop. -/
theorem countP_flatMap {β γ : Type} (l : List β) (f : β → List γ) (p : γ → Bool) :
    (l.flatMap f).countP p = (l.map fun b => (f b).countP p).sum := by
  induction l with
  | nil => rfl
  | cons b t ih => simp [List.flatMap_cons, List.countP_append, ih]

theorem countP_range_card (q : ℕ → Bool) :
    ∀ n, (List.range n).countP q = ((Finset.range n).filter fun x => q x = true).card := by
  intro n
  induction n with
  | zero => rfl
  | succ m ih =>
    rw [List.range_succ, List.countP_append, Finset.range_succ, Finset.filter_insert]
    by_cases hq : q m = true
    · rw [if_pos hq, Finset.card_insert_of_not_mem (by simp)]
      simp [hq, ih]
    · rw [if_neg hq]
      simp [List.countP_cons, hq, ih]

theorem list_range_map_sum {M : Type} [AddCommMonoid M] (f : ℕ → M) :
    ∀ n, ((List.range n).map f).sum = ∑ i in Finset.range n, f i := by
  intro n
  induction n with
  | zero => rfl
  | succ m ih =>
    rw [List.range_succ, List.map_append, List.sum_append, Finset.sum_range_succ, ih]
    simp

theorem rankStep_apply (d : ℕ → α) (rk : ℕ → ℤ) (ij : ℕ × ℕ) (a : ℕ) :
    (rankStepFn d rk ij) a =
      rk a + (if (if d ij.1 < d ij.2 then ij.1 else ij.2) = a then 1 else 0) := by
  unfold rankStepFn
  by_cases hd : d ij.1 < d ij.2
  · rw [if_pos hd, if_pos hd, Function.update_apply]
    by_cases ha : a = ij.1
    · rw [if_pos ha, if_pos ha.symm, ha]
    · rw [if_neg ha, if_neg (fun h => ha h.symm), add_zero]
  · rw [if_neg hd, if_neg hd, Function.update_apply]
    by_cases ha : a = ij.2
    · rw [if_pos ha, if_pos ha.symm, ha]
    · rw [if_neg ha, if_neg (fun h => ha h.symm), add_zero]

theorem foldl_rankStep_apply (d : ℕ → α) :
    ∀ (l : List (ℕ × ℕ)) (rk : ℕ → ℤ) (a : ℕ),
      (l.foldl (rankStepFn d) rk) a =
        rk a + (l.countP fun ij =>
          decide ((if d ij.1 < d ij.2 then ij.1 else ij.2) = a) : ℤ) := by
  intro l
  induction l with
  | nil => intro rk a; simp
  | cons ij t ih =>
    intro rk a
    rw [List.foldl_cons, ih, List.countP_cons, rankStep_apply]
    by_cases h : (if d ij.1 < d ij.2 then ij.1 else ij.2) = a
    · simp [h]
      omega
    · simp [h]

theorem rankLT_iff (d : ℕ → α) (a b : ℕ) :
    rankLT d a b ↔ (d a < d b ∨ (d a = d b ∧ b < a)) := by
  unfold rankLT
  constructor
  · rintro (⟨hab, hd⟩ | ⟨hba, hd⟩)
    · exact Or.inl hd
    · rcases hd.lt_or_eq with h | h
      · exact Or.inl h
      · exact Or.inr ⟨h, hba⟩
  · rintro (hd | ⟨hd, hba⟩)
    · rcases lt_trichotomy a b with h | h | h
      · exact Or.inl ⟨h, hd⟩
      · subst h; exact absurd hd (lt_irrefl _)
      · exact Or.inr ⟨h, le_of_lt hd⟩
    · exact Or.inr ⟨hba, le_of_eq hd⟩

theorem rankLT_irrefl (d : ℕ → α) (a : ℕ) : ¬ rankLT d a a := by
  unfold rankLT
  rintro (⟨h, _⟩ | ⟨h, _⟩) <;> exact absurd h (lt_irrefl a)

theorem rankLT_trans (d : ℕ → α) (a b c : ℕ) :
    rankLT d a b → rankLT d b c → rankLT d a c := by
  rw [rankLT_iff, rankLT_iff, rankLT_iff]
  rintro (h1 | ⟨h1, h1b⟩) (h2 | ⟨h2, h2b⟩)
  · exact Or.inl (lt_trans h1 h2)
  · exact Or.inl (h2 ▸ h1)
  · exact Or.inl (h1 ▸ h2)
  · exact Or.inr ⟨h1.trans h2, lt_trans h2b h1b⟩

theorem rankLT_total (d : ℕ → α) (a b : ℕ) (hne : a ≠ b) :
    rankLT d a b ∨ rankLT d b a := by
  rw [rankLT_iff, rankLT_iff]
  rcases lt_trichotomy (d a) (d b) with h | h | h
  · exact Or.inl (Or.inl h)
  · rcases Nat.lt_or_ge a b with hab | hab
    · exact Or.inr (Or.inr ⟨h.symm, hab⟩)
    · exact Or.inl (Or.inr ⟨h, by omega⟩)
  · exact Or.inr (Or.inl h)

theorem rank_target_self_iff (d : ℕ → α) (a j : ℕ) :
    ((if d a < d j then a else j) = a ∧ a < j) ↔ (a < j ∧ d a < d j) := by
  constructor
  · rintro ⟨htgt, hlt⟩
    refine ⟨hlt, ?_⟩
    by_cases hd : d a < d j
    · exact hd
    · rw [if_neg hd] at htgt
      omega
  · rintro ⟨hlt, hd⟩
    exact ⟨by rw [if_pos hd], hlt⟩

theorem rank_target_other_iff (d : ℕ → α) (a i j : ℕ) (hia : i ≠ a) :
    ((if d i < d j then i else j) = a ∧ i < j) ↔ (j = a ∧ i < a ∧ d a ≤ d i) := by
  constructor
  · rintro ⟨htgt, hlt⟩
    by_cases hd : d i < d j
    · rw [if_pos hd] at htgt
      exact absurd htgt hia
    · rw [if_neg hd] at htgt
      subst htgt
      exact ⟨rfl, hlt, not_lt.mp hd⟩
  · rintro ⟨hj, hlt, hd⟩
    subst hj
    exact ⟨by rw [if_neg (not_lt.mpr hd)], hlt⟩

theorem card_target_self (d : ℕ → α) (pd a : ℕ) :
    ((Finset.range (pd + 1)).filter fun j =>
        ((if d a < d j then a else j) = a ∧ a < j)).card =
      ((Finset.range (pd + 1)).filter fun j => a < j ∧ d a < d j).card := by
  congr 1
  apply Finset.filter_congr
  intro j _
  exact rank_target_self_iff d a j

theorem card_target_other (d : ℕ → α) (pd a i : ℕ) (hia : i ≠ a) (ha : a ≤ pd) :
    ((Finset.range (pd + 1)).filter fun j =>
        ((if d i < d j then i else j) = a ∧ i < j)).card =
      if i < a ∧ d a ≤ d i then 1 else 0 := by
  have hcong : ((Finset.range (pd + 1)).filter fun j =>
      ((if d i < d j then i else j) = a ∧ i < j)) =
      ((Finset.range (pd + 1)).filter fun j => j = a ∧ i < a ∧ d a ≤ d i) := by
    apply Finset.filter_congr
    intro j _
    exact rank_target_other_iff d a i j hia
  rw [hcong]
  by_cases hc : i < a ∧ d a ≤ d i
  · rw [if_pos hc]
    have : ((Finset.range (pd + 1)).filter fun j => j = a ∧ i < a ∧ d a ≤ d i) = {a} := by
      ext j
      simp only [Finset.mem_filter, Finset.mem_range, Finset.mem_singleton]
      constructor
      · rintro ⟨_, hj, _⟩; exact hj
      · rintro rfl; exact ⟨by omega, rfl, hc⟩
    rw [this, Finset.card_singleton]
  · rw [if_neg hc]
    have : ((Finset.range (pd + 1)).filter fun j => j = a ∧ i < a ∧ d a ≤ d i) = ∅ := by
      ext j
      simp only [Finset.mem_filter, Finset.mem_range, Finset.not_mem_empty, iff_false]
      rintro ⟨_, _, hj2⟩
      exact hc hj2
    rw [this, Finset.card_empty]

theorem rankPre_eq_card (pd : ℕ) (pos s : ℕ → α) (a : ℕ) (ha : a ≤ pd) :
    rankPre pd pos s a =
      (((Finset.range (pd + 1)).filter (rankLT (dPre pd pos s) a)).card : ℤ) := by
  have h1 : rankPre pd pos s a = ((pairList pd).countP fun ij =>
      decide ((if dPre pd pos s ij.1 < dPre pd pos s ij.2 then ij.1 else ij.2) = a) : ℤ) := by
    unfold rankPre
    rw [foldl_rankStep_apply]
    norm_num
  rw [h1]
  have h2 : ((pairList pd).countP fun ij =>
      decide ((if dPre pd pos s ij.1 < dPre pd pos s ij.2 then ij.1 else ij.2) = a)) =
      ((Finset.range (pd + 1)).filter (rankLT (dPre pd pos s) a)).card := by
    set d := dPre pd pos s with hdd
    unfold pairList
    rw [countP_flatMap]
    simp only [List.countP_map, List.countP_filter, Function.comp]
    simp only [countP_range_card]
    rw [list_range_map_sum]
    have hpred : ∀ i, ((Finset.range (pd + 1)).filter fun x =>
        ((fun ij => decide ((if d ij.1 < d ij.2 then ij.1 else ij.2) = a)) (i, x) &&
          decide (i < x)) = true) =
        ((Finset.range (pd + 1)).filter fun j =>
          ((if d i < d j then i else j) = a ∧ i < j)) := by
      intro i
      apply Finset.filter_congr
      intro j _
      simp only [Bool.and_eq_true, decide_eq_true_eq]
    simp only [hpred]
    have hamem : a ∈ Finset.range (pd + 1) := by
      simp only [Finset.mem_range]
      omega
    rw [← Finset.add_sum_erase _ _ hamem]
    have herase : ∑ i in (Finset.range (pd + 1)).erase a,
        ((Finset.range (pd + 1)).filter fun j =>
          ((if d i < d j then i else j) = a ∧ i < j)).card =
        ((Finset.range (pd + 1)).filter fun b => b < a ∧ d a ≤ d b).card := by
      have hstep : ∀ i ∈ (Finset.range (pd + 1)).erase a,
          ((Finset.range (pd + 1)).filter fun j =>
            ((if d i < d j then i else j) = a ∧ i < j)).card =
          if i < a ∧ d a ≤ d i then 1 else 0 :=
        fun i hi => card_target_other d pd a i (Finset.ne_of_mem_erase hi) ha
      rw [Finset.sum_congr rfl hstep]
      have hat : (if a < a ∧ d a ≤ d a then 1 else 0) = 0 :=
        if_neg fun h => absurd h.1 (lt_irrefl a)
      calc ∑ i in (Finset.range (pd + 1)).erase a, (if i < a ∧ d a ≤ d i then 1 else 0)
          = (if a < a ∧ d a ≤ d a then 1 else 0) +
            ∑ i in (Finset.range (pd + 1)).erase a, (if i < a ∧ d a ≤ d i then 1 else 0) := by
            rw [hat, zero_add]
        _ = ∑ i in Finset.range (pd + 1), (if i < a ∧ d a ≤ d i then 1 else 0) :=
            Finset.add_sum_erase _ (fun i => if i < a ∧ d a ≤ d i then 1 else 0) hamem
        _ = ((Finset.range (pd + 1)).filter fun b => b < a ∧ d a ≤ d b).card := by
            rw [Finset.sum_boole, Nat.cast_id]
    rw [card_target_self d pd a, herase]
    have hfor : ((Finset.range (pd + 1)).filter (rankLT d a)) =
        ((Finset.range (pd + 1)).filter fun b => a < b ∧ d a < d b) ∪
        ((Finset.range (pd + 1)).filter fun b => b < a ∧ d a ≤ d b) := by
      rw [← Finset.filter_or]
      apply Finset.filter_congr
      intro b _
      exact Iff.rfl
    have hdisj : Disjoint
        ((Finset.range (pd + 1)).filter fun b => a < b ∧ d a < d b)
        ((Finset.range (pd + 1)).filter fun b => b < a ∧ d a ≤ d b) := by
      rw [Finset.disjoint_left]
      intro b hb1 hb2
      simp only [Finset.mem_filter] at hb1 hb2
      omega
    rw [hfor, Finset.card_union_of_disjoint hdisj]
  exact_mod_cast congrArg (fun n : ℕ => (n : ℤ)) h2

theorem rankPre_nonneg (pd : ℕ) (pos s : ℕ → α) (a : ℕ) : 0 ≤ rankPre pd pos s a := by
  unfold rankPre
  rw [foldl_rankStep_apply]
  simp

theorem rankPre_le (pd : ℕ) (pos s : ℕ → α) (a : ℕ) (ha : a ≤ pd) :
    rankPre pd pos s a ≤ (pd : ℤ) := by
  rw [rankPre_eq_card pd pos s a ha]
  have hsub : (Finset.range (pd + 1)).filter (rankLT (dPre pd pos s) a) ⊆
      (Finset.range (pd + 1)).erase a := by
    intro b hb
    rw [Finset.mem_filter] at hb
    rw [Finset.mem_erase]
    refine ⟨?_, hb.1⟩
    rintro rfl
    exact rankLT_irrefl _ b hb.2
  have hcard := Finset.card_le_card hsub
  rw [Finset.card_erase_of_mem (by simp only [Finset.mem_range]; omega),
    Finset.card_range] at hcard
  exact_mod_cast le_trans hcard (by omega)

theorem rankPre_lt_of_rankLT (pd : ℕ) (pos s : ℕ → α) (a b : ℕ) (ha : a ≤ pd) (hb : b ≤ pd)
    (hab : rankLT (dPre pd pos s) a b) :
    rankPre pd pos s b < rankPre pd pos s a := by
  rw [rankPre_eq_card pd pos s a ha, rankPre_eq_card pd pos s b hb]
  have hss : (Finset.range (pd + 1)).filter (rankLT (dPre pd pos s) b) ⊂
      (Finset.range (pd + 1)).filter (rankLT (dPre pd pos s) a) := by
    rw [Finset.ssubset_def]
    constructor
    · intro c hc
      rw [Finset.mem_filter] at hc ⊢
      exact ⟨hc.1, rankLT_trans _ a b c hab hc.2⟩
    · intro hcontra
      have hmem : b ∈ (Finset.range (pd + 1)).filter (rankLT (dPre pd pos s) a) := by
        rw [Finset.mem_filter]
        exact ⟨by simp only [Finset.mem_range]; omega, hab⟩
      have := hcontra hmem
      rw [Finset.mem_filter] at this
      exact rankLT_irrefl _ b this.2
  exact_mod_cast Finset.card_lt_card hss

theorem rankPre_inj (pd : ℕ) (pos s : ℕ → α) (a b : ℕ) (ha : a ≤ pd) (hb : b ≤ pd)
    (hne : a ≠ b) : rankPre pd pos s a ≠ rankPre pd pos s b := by
  rcases rankLT_total (dPre pd pos s) a b hne with h | h
  · exact (rankPre_lt_of_rankLT pd pos s a b ha hb h).ne'
  · exact (rankPre_lt_of_rankLT pd pos s b a hb ha h).ne

theorem rankPre_surj (pd : ℕ) (pos s : ℕ → α) (v : ℤ) (h0 : 0 ≤ v) (hv : v ≤ (pd : ℤ)) :
    ∃ a, a ≤ pd ∧ rankPre pd pos s a = v := by
  have hcast : ∀ a ≤ pd, rankPre pd pos s a =
      ((((Finset.range (pd + 1)).filter (rankLT (dPre pd pos s) a)).card : ℕ) : ℤ) :=
    fun a ha => rankPre_eq_card pd pos s a ha
  set g : ℕ → ℕ := fun a => ((Finset.range (pd + 1)).filter (rankLT (dPre pd pos s) a)).card
    with hg
  have himg : Finset.image g (Finset.range (pd + 1)) = Finset.range (pd + 1) := by
    apply Finset.eq_of_subset_of_card_le
    · intro x hx
      rw [Finset.mem_image] at hx
      obtain ⟨a, hamem, hax⟩ := hx
      rw [Finset.mem_range] at hamem
      have := rankPre_le pd pos s a (by omega)
      rw [hcast a (by omega)] at this
      rw [Finset.mem_range, ← hax]
      have hgle : (g a : ℤ) ≤ (pd : ℤ) := this
      omega
    · have hinj : Set.InjOn g (Finset.range (pd + 1)) := by
        intro x hx y hy hxy
        by_contra hne
        rw [Finset.mem_coe, Finset.mem_range] at hx hy
        have := rankPre_inj pd pos s x y (by omega) (by omega) hne
        rw [hcast x (by omega), hcast y (by omega)] at this
        exact this (by exact_mod_cast hxy)
      rw [Finset.card_image_of_injOn hinj, Finset.card_range]
  have hmem : v.toNat ∈ Finset.image g (Finset.range (pd + 1)) := by
    rw [himg, Finset.mem_range]
    omega
  rw [Finset.mem_image] at hmem
  obtain ⟨a, hamem, hav⟩ := hmem
  rw [Finset.mem_range] at hamem
  refine ⟨a, by omega, ?_⟩
  rw [hcast a (by omega)]
  show ((g a : ℕ) : ℤ) = v
  rw [hav]
  omega

theorem rankCor_bounds (pd : ℕ) (pos s : ℕ → α) (i : ℕ) (hi : i ≤ pd) :
    0 ≤ rankCor pd pos s i ∧ rankCor pd pos s i ≤ (pd : ℤ) := by
  have h0 := rankPre_nonneg pd pos s i
  have h1 := rankPre_le pd pos s i hi
  have hh := abs_le.mp (hCoord_abs_le pd pos s)
  unfold rankCor
  dsimp only
  split_ifs with hpos hge hneg hlt
  · omega
  · omega
  · omega
  · omega
  · omega

theorem baryStep_apply (pd : ℕ) (pos s : ℕ → α) (b : ℤ → α) (i : ℕ) (x : ℤ) :
    baryStep pd pos s b i x =
      b x + (if x = (pd : ℤ) - rankCor pd pos s i
          then (elevated pd pos s i - (yCor pd pos s i : α)) / ((pd : α) + 1) else 0) +
        (if x = (pd : ℤ) + 1 - rankCor pd pos s i
          then -((elevated pd pos s i - (yCor pd pos s i : α)) / ((pd : α) + 1)) else 0) := by
  unfold baryStep
  have hne : (pd : ℤ) + 1 - rankCor pd pos s i ≠ (pd : ℤ) - rankCor pd pos s i := by omega
  by_cases h2 : x = (pd : ℤ) + 1 - rankCor pd pos s i <;>
    by_cases h1 : x = (pd : ℤ) - rankCor pd pos s i
  · omega
  · subst h2
    simp [Function.update_apply, if_neg h1, hne]
    ring
  · subst h1
    simp [Function.update_apply, Ne.symm hne, hne]
  · simp [Function.update_apply, h1, h2]

theorem foldl_baryStep_apply (pd : ℕ) (pos s : ℕ → α) :
    ∀ (l : List ℕ) (b : ℤ → α) (x : ℤ),
      (l.foldl (baryStep pd pos s) b) x =
        b x + ((l.map fun i =>
          (if x = (pd : ℤ) - rankCor pd pos s i
            then (elevated pd pos s i - (yCor pd pos s i : α)) / ((pd : α) + 1) else 0) +
          (if x = (pd : ℤ) + 1 - rankCor pd pos s i
            then -((elevated pd pos s i - (yCor pd pos s i : α)) / ((pd : α) + 1)) else 0)).sum) := by
  intro l
  induction l with
  | nil => intro b x; simp
  | cons j t ih =>
    intro b x
    rw [List.foldl_cons, ih, List.map_cons, List.sum_cons, baryStep_apply]
    ring

theorem baryAcc_apply (pd : ℕ) (pos s : ℕ → α) (x : ℤ) :
    baryAcc pd pos s x =
      ∑ i in Finset.range (pd + 1),
        ((if x = (pd : ℤ) - rankCor pd pos s i
            then (elevated pd pos s i - (yCor pd pos s i : α)) / ((pd : α) + 1) else 0) +
          (if x = (pd : ℤ) + 1 - rankCor pd pos s i
            then -((elevated pd pos s i - (yCor pd pos s i : α)) / ((pd : α) + 1)) else 0)) := by
  unfold baryAcc
  rw [foldl_baryStep_apply, list_range_map_sum]
  simp

/-- C3: for every input point (any pd, position row and scale factors),
the pd + 2 barycentric weights computed by the geometry transform inside
splat_kernel — bary[0..pd+1], with the final adjustment
bary[0] += 1 + bary[pd+1] — are such that the weights of the pd + 1
simplex corners, bary[0] through bary[pd], sum to exactly 1 in exact
arithmetic. -/
theorem c3_barycentric_sum_one (pd : ℕ) (pos s : ℕ → α) :
    ∑ r in Finset.range (pd + 1), bary pd pos s (r : ℤ) = 1 := by
  have hbd : ∀ i, i ∈ Finset.range (pd + 1) →
      0 ≤ rankCor pd pos s i ∧ rankCor pd pos s i ≤ (pd : ℤ) := by
    intro i hi
    rw [Finset.mem_range] at hi
    exact rankCor_bounds pd pos s i (by omega)
  -- the top bin of the accumulated array
  have htop : baryAcc pd pos s ((pd : ℤ) + 1) =
      ∑ i in Finset.range (pd + 1),
        (if rankCor pd pos s i = 0
          then -((elevated pd pos s i - (yCor pd pos s i : α)) / ((pd : α) + 1)) else 0) := by
    rw [baryAcc_apply]
    apply Finset.sum_congr rfl
    intro i hi
    have hb := hbd i hi
    rw [if_neg (by omega : ¬ ((pd : ℤ) + 1 = (pd : ℤ) - rankCor pd pos s i)), zero_add]
    by_cases hr : rankCor pd pos s i = 0
    · rw [if_pos (by omega), if_pos hr]
    · rw [if_neg (by omega), if_neg hr]
  -- the observable window of the accumulated array
  have hwin : ∑ r in Finset.range (pd + 1), baryAcc pd pos s (r : ℤ) =
      ∑ i in Finset.range (pd + 1),
        (if rankCor pd pos s i = 0
          then (elevated pd pos s i - (yCor pd pos s i : α)) / ((pd : α) + 1) else 0) := by
    have hrw : ∀ r ∈ Finset.range (pd + 1), baryAcc pd pos s (r : ℤ) =
        ∑ i in Finset.range (pd + 1),
          ((if (r : ℤ) = (pd : ℤ) - rankCor pd pos s i
            then (elevated pd pos s i - (yCor pd pos s i : α)) / ((pd : α) + 1) else 0) +
          (if (r : ℤ) = (pd : ℤ) + 1 - rankCor pd pos s i
            then -((elevated pd pos s i - (yCor pd pos s i : α)) / ((pd : α) + 1)) else 0)) :=
      fun r _ => baryAcc_apply pd pos s (r : ℤ)
    rw [Finset.sum_congr rfl hrw, Finset.sum_comm]
    apply Finset.sum_congr rfl
    intro i hi
    have hb := hbd i hi
    rw [Finset.sum_add_distrib]
    have hfirst : ∑ r in Finset.range (pd + 1),
        (if (r : ℤ) = (pd : ℤ) - rankCor pd pos s i
          then (elevated pd pos s i - (yCor pd pos s i : α)) / ((pd : α) + 1) else 0) =
        (elevated pd pos s i - (yCor pd pos s i : α)) / ((pd : α) + 1) := by
      rw [Finset.sum_eq_single_of_mem ((pd : ℤ) - rankCor pd pos s i).toNat]
      · rw [if_pos (by omega)]
      · rw [Finset.mem_range]
        omega
      · intro r hr hrne
        rw [Finset.mem_range] at hr
        rw [if_neg (by omega)]
    have hsecond : ∑ r in Finset.range (pd + 1),
        (if (r : ℤ) = (pd : ℤ) + 1 - rankCor pd pos s i
          then -((elevated pd pos s i - (yCor pd pos s i : α)) / ((pd : α) + 1)) else 0) =
        (if rankCor pd pos s i = 0 then 0
          else -((elevated pd pos s i - (yCor pd pos s i : α)) / ((pd : α) + 1))) := by
      by_cases hr : rankCor pd pos s i = 0
      · rw [if_pos hr]
        apply Finset.sum_eq_zero
        intro r hrr
        rw [Finset.mem_range] at hrr
        rw [if_neg (by omega)]
      · rw [if_neg hr]
        rw [Finset.sum_eq_single_of_mem ((pd : ℤ) + 1 - rankCor pd pos s i).toNat]
        · rw [if_pos (by omega)]
        · rw [Finset.mem_range]
          omega
        · intro r hrr hrne
          rw [Finset.mem_range] at hrr
          rw [if_neg (by omega)]
    rw [hfirst, hsecond]
    by_cases hr : rankCor pd pos s i = 0
    · rw [if_pos hr, if_pos hr, add_zero]
    · rw [if_neg hr, if_neg hr]
      ring
  -- assemble through the final bary[0] adjustment
  have hupd : ∀ r ∈ Finset.range (pd + 1), bary pd pos s (r : ℤ) =
      baryAcc pd pos s (r : ℤ) +
        (if r = 0 then 1 + baryAcc pd pos s ((pd : ℤ) + 1) else 0) := by
    intro r hr
    unfold bary
    rw [Function.update_apply]
    by_cases h0 : r = 0
    · rw [if_pos (by exact_mod_cast congrArg (Nat.cast : ℕ → ℤ) h0), if_pos h0, h0]
      push_cast
      ring
    · rw [if_neg (by exact_mod_cast fun h => h0 (by exact_mod_cast h)), if_neg h0, add_zero]
  rw [Finset.sum_congr rfl hupd, Finset.sum_add_distrib]
  have hlast : ∑ r in Finset.range (pd + 1),
      (if r = 0 then 1 + baryAcc pd pos s ((pd : ℤ) + 1) else 0) =
      1 + baryAcc pd pos s ((pd : ℤ) + 1) := by
    rw [Finset.sum_eq_single_of_mem 0]
    · rw [if_pos rfl]
    · rw [Finset.mem_range]
      omega
    · intro r hr hrne
      rw [if_neg hrne]
  rw [hlast, hwin, htop]
  have hneg : (∑ i in Finset.range (pd + 1),
      (if rankCor pd pos s i = 0
        then -((elevated pd pos s i - (yCor pd pos s i : α)) / ((pd : α) + 1)) else 0)) =
      -(∑ i in Finset.range (pd + 1),
        (if rankCor pd pos s i = 0
          then (elevated pd pos s i - (yCor pd pos s i : α)) / ((pd : α) + 1) else 0)) := by
    rw [← Finset.sum_neg_distrib]
    apply Finset.sum_congr rfl
    intro i _
    by_cases hr : rankCor pd pos s i = 0
    · rw [if_pos hr, if_pos hr]
    · rw [if_neg hr, if_neg hr, neg_zero]
  rw [hneg]
  ring

/-- C10: for every input point, after the pairwise ranking loop the values
rank[0..pd] form a permutation of the set 0, ..., pd (every value lies in
[0, pd], distinct axes receive distinct ranks, and every value in [0, pd]
is attained), and after the h-correction every rank[i] still lies in
[0, pd]; consequently the splat kernel's accesses bary[pd - rank[i]] and
bary[pd + 1 - rank[i]] lie within the pd + 2 entries of the bary array and
canonical[r * (pd+1) + rank[i]] lies within the (pd+1) * (pd+1) entries of
the canonical table for every corner r. -/
theorem c10_rank_permutation_bounds (pd : ℕ) (pos s : ℕ → α) :
    (∀ i, i ≤ pd → 0 ≤ rankPre pd pos s i ∧ rankPre pd pos s i ≤ (pd : ℤ)) ∧
    (∀ i j, i ≤ pd → j ≤ pd → i ≠ j → rankPre pd pos s i ≠ rankPre pd pos s j) ∧
    (∀ v : ℤ, 0 ≤ v → v ≤ (pd : ℤ) → ∃ i, i ≤ pd ∧ rankPre pd pos s i = v) ∧
    (∀ i, i ≤ pd →
      0 ≤ rankCor pd pos s i ∧ rankCor pd pos s i ≤ (pd : ℤ) ∧
      0 ≤ (pd : ℤ) - rankCor pd pos s i ∧ (pd : ℤ) - rankCor pd pos s i ≤ (pd : ℤ) + 1 ∧
      0 ≤ (pd : ℤ) + 1 - rankCor pd pos s i ∧ (pd : ℤ) + 1 - rankCor pd pos s i ≤ (pd : ℤ) + 1 ∧
      ∀ r, r ≤ pd →
        0 ≤ (r : ℤ) * ((pd : ℤ) + 1) + rankCor pd pos s i ∧
        (r : ℤ) * ((pd : ℤ) + 1) + rankCor pd pos s i < ((pd : ℤ) + 1) * ((pd : ℤ) + 1)) := by
  refine ⟨fun i hi => ⟨rankPre_nonneg pd pos s i, rankPre_le pd pos s i hi⟩,
    fun i j hi hj => rankPre_inj pd pos s i j hi hj,
    fun v h0 hv => rankPre_surj pd pos s v h0 hv, ?_⟩
  intro i hi
  obtain ⟨h0, h1⟩ := rankCor_bounds pd pos s i hi
  refine ⟨h0, h1, by omega, by omega, by omega, by omega, ?_⟩
  intro r hr
  have hr1 : (0 : ℤ) ≤ (r : ℤ) * ((pd : ℤ) + 1) :=
    mul_nonneg (Int.natCast_nonneg r) (by omega)
  have hr2 : (r : ℤ) * ((pd : ℤ) + 1) ≤ (pd : ℤ) * ((pd : ℤ) + 1) :=
    mul_le_mul_of_nonneg_right (by exact_mod_cast hr) (by omega)
  have hexp : ((pd : ℤ) + 1) * ((pd : ℤ) + 1) = (pd : ℤ) * ((pd : ℤ) + 1) + ((pd : ℤ) + 1) := by
    ring
  constructor
  · linarith
  · linarith

/-- Witness for C10 at pd = 1 with zero positions and scale factors,
projected to the pre-correction bound for axis 0. -/
theorem c10_rank_permutation_bounds_witness :
    ((0 : ℕ) ≤ 1) ∧
    (0 ≤ rankPre 1 (fun _ => (0 : ℚ)) (fun _ => 0) 0 ∧
      rankPre 1 (fun _ => (0 : ℚ)) (fun _ => 0) 0 ≤ (1 : ℤ)) :=
  ⟨by decide, (c10_rank_permutation_bounds 1 (fun _ => 0) (fun _ => 0)).1 0 (by decide)⟩

/-! Shared evaluation lemmas for the end-to-end scenario with pd = 1,
vd = 1, a single point at position 0.0 (so every scale-factor product
vanishes and the evaluation is exact for arbitrary scale factors, covering
the constructor's irrational ones) and an arbitrary feature value v. -/
theorem c_round_zero : c_round (0 : α) = 0 := by
  unfold c_round
  rw [if_pos le_rfl]
  rw [zero_add]
  rw [Int.floor_eq_zero_iff.mpr]
  constructor
  · norm_num
  · norm_num

theorem elevatedAux_zero_pos (pd : ℕ) (s : ℕ → α) : ∀ j, elevatedAux pd (fun _ => 0) s j = 0 := by
  intro j
  induction j with
  | zero => show -(pd : α) * 0 * s (pd - 1) = 0; ring
  | succ j ih =>
    rw [elevatedAux_succ, ih]
    by_cases h : pd - (j + 1) = 0
    · rw [if_pos h]; ring
    · rw [if_neg h]; ring

theorem elevated_zero_pos (pd : ℕ) (s : ℕ → α) : ∀ i, elevated pd (fun _ => 0) s i = 0 := by
  intro i
  unfold elevated
  by_cases h : pd ≤ i
  · rw [if_pos h, elevatedAux_zero_pos]
  · rw [if_neg h, elevatedAux_zero_pos]

theorem yCoord_zero_pos (pd : ℕ) (s : ℕ → α) (i : ℕ) : yCoord pd (fun _ => 0) s i = 0 := by
  unfold yCoord
  rw [elevated_zero_pos, zero_div, c_round_zero, zero_mul]

theorem hCoord_zero_pos (pd : ℕ) (s : ℕ → α) : hCoord pd (fun _ => 0) s = 0 := by
  unfold hCoord hSum
  rw [Finset.sum_congr rfl fun i _ => yCoord_zero_pos pd s i]
  simp

theorem dPre_zero_pos (pd : ℕ) (s : ℕ → α) (i : ℕ) : dPre pd (fun _ => 0) s i = 0 := by
  unfold dPre
  rw [elevated_zero_pos, yCoord_zero_pos]
  simp

theorem pairList_one : pairList 1 = [(0, 1)] := by decide

theorem rankPre_scen (s : ℕ → α) : rankPre 1 (fun _ => 0) s = Function.update (fun _ => 0) 1 1 := by
  unfold rankPre
  rw [pairList_one]
  show rankStepFn (dPre 1 (fun _ => 0) s) (fun _ => 0) (0, 1) = _
  unfold rankStepFn
  rw [dPre_zero_pos, dPre_zero_pos, if_neg (lt_irrefl _)]
  norm_num

theorem rankCor_scen (s : ℕ → α) (i : ℕ) : rankCor 1 (fun _ => 0) s i = rankPre 1 (fun _ => 0) s i := by
  unfold rankCor
  rw [hCoord_zero_pos]
  norm_num

theorem yCor_scen (s : ℕ → α) (i : ℕ) : yCor 1 (fun _ => 0) s i = 0 := by
  unfold yCor
  rw [hCoord_zero_pos, yCoord_zero_pos]
  norm_num

theorem bary_scen0 (s : ℕ → α) : bary 1 (fun _ => 0) s 0 = 1 := by
  unfold bary baryAcc
  have h2 : List.range 2 = [0, 1] := by decide
  rw [h2]
  show Function.update (baryStep 1 _ s (baryStep 1 _ s (fun _ => 0) 0) 1) 0 _ 0 = 1
  unfold baryStep
  simp only [rankCor_scen, rankPre_scen, elevated_zero_pos, yCor_scen]
  norm_num [Function.update]

theorem bary_scen1 (s : ℕ → α) : bary 1 (fun _ => 0) s 1 = 0 := by
  unfold bary baryAcc
  have h2 : List.range 2 = [0, 1] := by decide
  rw [h2]
  show Function.update (baryStep 1 _ s (baryStep 1 _ s (fun _ => 0) 0) 1) 0 _ 1 = 0
  unfold baryStep
  simp only [rankCor_scen, rankPre_scen, elevated_zero_pos, yCor_scen]
  norm_num [Function.update]

theorem key_scen0 (s : ℕ → α) (i : ℕ) : keyOfCorner 1 (fun _ => 0) s 0 i = 0 := by
  unfold keyOfCorner
  rw [yCor_scen, rankCor_scen, rankPre_scen]
  unfold canonical
  by_cases hi : i = 1
  · subst hi; norm_num
  · rw [Function.update_noteq hi]
    norm_num

theorem key_scen1 (s : ℕ → α) : keyOfCorner 1 (fun _ => 0) s 1 0 = 1 := by
  unfold keyOfCorner
  rw [yCor_scen, rankCor_scen, rankPre_scen]
  unfold canonical
  rw [Function.update_noteq (by norm_num)]
  norm_num

theorem hash_scen0 (s : ℕ → α) : hashKey 1 (keyOfCorner 1 (fun _ => 0) s 0) = 0 := by
  unfold hashKey
  rw [show List.range 1 = [0] from rfl]
  show (0 + ((keyOfCorner 1 (fun _ => 0) s 0 0) % (2:ℤ) ^ 64).toNat) * 2531011 % 2 ^ 64 = 0
  rw [key_scen0]
  norm_num

theorem hash_scen1 (s : ℕ → α) : hashKey 1 (keyOfCorner 1 (fun _ => 0) s 1) = 2531011 := by
  unfold hashKey
  rw [show List.range 1 = [0] from rfl]
  show (0 + ((keyOfCorner 1 (fun _ => 0) s 1 0) % (2:ℤ) ^ 64).toNat) * 2531011 % 2 ^ 64 = 2531011
  rw [key_scen1]
  norm_num

theorem scen_filter (s : ℕ → α) (v : α) :
    (filter 1 1 1 1 (fun _ _ => v) (fun _ _ => 0) s).map (fun f => f 0 0) = some (2 / 3 * v) := by
  have hmin : min (threadCount 1) 1 = 1 := by norm_num [threadCount, blockSize]
  unfold filter splat
  rw [Option.map_map, hmin]
  rw [show List.range 1 = [0] from rfl, show List.range (1 + 1) = [0, 1] from rfl]
  simp only [List.foldl_cons, List.foldl_nil, Option.some_bind]
  unfold splatCorner
  rw [show (0 * (1 + 1) + 0 : ℕ) = 0 from rfl, show (0 * (1 + 1) + 1 : ℕ) = 1 from rfl]
  simp only []
  rw [show (1 * (1 + 1) : ℕ) = 1 + 1 from rfl]
  rw [hash_scen0 s, show ((0 : ℕ) % (1 + 1)) = 0 from rfl]
  rw [insert_eq_claim 1 (1 + 1) initTable (keyOfCorner 1 (fun _ => 0) s 0) 0 1 0 rfl]
  simp only [Option.some_bind]
  rw [hash_scen1 s, show ((2531011 : ℕ) % (1 + 1)) = 1 from rfl]
  have hins2 := insert_eq_claim 1 (1 + 1)
    ({ keys := writeKeys 1 (initTable : HashTableGPU α).keys 0 (keyOfCorner 1 (fun _ => 0) s 0),
       values := atomicAddVec 1 (initTable : HashTableGPU α).values
         ((Function.update (initTable : HashTableGPU α).entry2nid 0 ((0 : ℕ) : ℤ) 0).toNat * 1)
         (bary 1 (fun _ => 0) s ((0 : ℕ) : ℤ)) fun i => v,
       entry2nid := Function.update (initTable : HashTableGPU α).entry2nid 0 ((0 : ℕ) : ℤ) } : HashTableGPU α)
    (keyOfCorner 1 (fun _ => 0) s 1) 1 1 1 rfl
  rw [hins2]
  simp only [Option.map_some', Function.comp, Option.some.injEq]
  unfold sliceResult sliceLoop
  rw [hmin, if_pos (by norm_num : (0:ℕ) < 1)]
  rw [show List.range (1 + 1) = [0, 1] from rfl]
  simp only [List.foldl_cons, List.foldl_nil]
  rw [show (0 * (1 + 1) + 0 : ℕ) = 0 from rfl, show (0 * (1 + 1) + 1 : ℕ) = 1 from rfl]
  norm_num [Function.update, atomicAddVec, initTable, normConst, bary_scen0, bary_scen1]
  ring



/-- Counterexample for C2: with the constructor's actual scale factors
scaleFactor[i] = (pd + 1) * sqrt(2/3) / sqrt((i+1) * (i+2)) over ℝ (pd = 1),
filtering a single point at position 0.0 with feature 1.0 does not return
1.0 at that point: the output is 2/3. -/
theorem c2_scenarioB_counterexample :
    ¬ ∃ f, filter 1 1 1 1 (fun _ _ => (1 : ℝ)) (fun _ _ => 0)
        (fun i => ((1 : ℝ) + 1) * Real.sqrt (2 / 3) /
          Real.sqrt (((i : ℝ) + 1) * ((i : ℝ) + 2))) = some f ∧ f 0 0 = 1 := by
  rintro ⟨f, hf, hval⟩
  have h := scen_filter (fun i => ((1 : ℝ) + 1) * Real.sqrt (2 / 3) /
    Real.sqrt (((i : ℝ) + 1) * ((i : ℝ) + 2))) 1
  rw [hf] at h
  simp only [Option.map_some', Option.some.injEq] at h
  rw [hval] at h
  norm_num at h

/-- C2 (amended): with pd = 1 and vd = 1, filtering a single point at
position 0.0 with feature value 1.0 produces the output feature 2/3 at that
point, for every scale-factor array: the slice normalisation constant
1 / (1 + 2^-1) = 2/3 scales the result and is not compensated anywhere in
the pipeline. -/
theorem c2_scenarioB_amended {β : Type} [LinearOrderedField β] [FloorRing β] (s : ℕ → β) :
    ∃ f, filter 1 1 1 1 (fun _ _ => (1 : β)) (fun _ _ => 0) s = some f ∧ f 0 0 = 2 / 3 := by
  have h := scen_filter s (1 : β)
  rw [mul_one] at h
  exact Option.map_eq_some'.mp h

/-- C6: the filter of permutohedral_cuda_kernel.cu returns the placeholder
at::ones_like(src) (value 1 in every entry), not the slice-stage
recombination: on the scenario pd = 1, vd = 1, one point at position 0.0
with feature 5.0, the replay-based pipeline's slice recombination yields
10/3 while the lookup-based file's filter returns 1. -/
theorem c6_filter_placeholder :
    (filterCu 1 1 : ℕ → ℕ → ℚ) 0 0 = 1 ∧
    (filter 1 1 1 1 (fun _ _ => (5 : ℚ)) (fun _ _ => 0) (fun _ => 0)).map (fun f => f 0 0) =
      some (10 / 3) ∧
    (1 : ℚ) ≠ 10 / 3 := by
  refine ⟨rfl, ?_, by norm_num⟩
  have h := scen_filter (fun _ => (0 : ℚ)) 5
  rw [h]
  norm_num

/-- C8 (amended): permutohedral_cuda_filter performs no precondition
validation whatsoever: even with mismatched row counts or zero
dimensionality it unconditionally dispatches the splat and slice kernels
(there is no conditional between entry and the kernel launches, and no
failure path). -/
theorem c8_no_validation_amended (pd vd srcRows refRows : ℕ) (src ref : ℕ → ℕ → α)
    (s : ℕ → α) (hbad : srcRows ≠ refRows ∨ vd = 0 ∨ pd = 0) :
    (permutohedral_cuda_filter pd vd srcRows refRows src ref s).dispatchedSplat = true ∧
    (permutohedral_cuda_filter pd vd srcRows refRows src ref s).dispatchedSlice = true :=
  ⟨rfl, rfl⟩

/-- Witness for C8 (amended) at the zero-dimensionality input pd = 0,
vd = 1, one point. -/
theorem c8_no_validation_amended_witness :
    ((1 : ℕ) ≠ 1 ∨ (1 : ℕ) = 0 ∨ (0 : ℕ) = 0) ∧
    ((permutohedral_cuda_filter 0 1 1 1 (fun _ _ => (1 : ℚ)) (fun _ _ => 0)
        (fun _ => 0)).dispatchedSplat = true ∧
      (permutohedral_cuda_filter 0 1 1 1 (fun _ _ => (1 : ℚ)) (fun _ _ => 0)
        (fun _ => 0)).dispatchedSlice = true) :=
  ⟨Or.inr (Or.inr rfl),
    c8_no_validation_amended 0 1 1 1 (fun _ _ => (1 : ℚ)) (fun _ _ => 0) (fun _ => 0)
      (Or.inr (Or.inr rfl))⟩

/-- Counterexample for C8: at the zero-dimensionality input pd = 0 (with
vd = 1 and one point), the invocation does not fail before device work:
both kernels are dispatched and the pipeline runs to completion, returning
a result buffer. -/
theorem c8_no_validation_counterexample :
    (permutohedral_cuda_filter 0 1 1 1 (fun _ _ => (1 : ℚ)) (fun _ _ => 0)
      (fun _ => 0)).dispatchedSplat = true ∧
    (permutohedral_cuda_filter 0 1 1 1 (fun _ _ => (1 : ℚ)) (fun _ _ => 0)
      (fun _ => 0)).dispatchedSlice = true ∧
    ((permutohedral_cuda_filter 0 1 1 1 (fun _ _ => (1 : ℚ)) (fun _ _ => 0)
      (fun _ => 0)).result.isSome) = true :=
  ⟨rfl, rfl, rfl⟩


end SimplexGP
